import Mathlib

/-!
Verification of the IMAP STARTTLS upgrade coroutine (`src/imap.rs`).

The development shallowly embeds the `UpgradeTls` state machine: bytes are
`List Nat`, the `memchr`/`memmem::find` scans are recursive functions with the
same first-occurrence semantics, Rust's inclusive slice `&v[a..=b]` is a
partial operation (`none` models the out-of-bounds panic), and the external
`io-stream` `Read`/`Write` coroutines are modelled from the spec's resumable
operation contract (§4.2), since that crate is not part of this repository.
-/

namespace IoStarttls

/-- The line-feed byte scanned for by the coroutine. -/
def lf : Nat := 10

/-- Bytes of a string (ASCII in practice). -/
def strBytes (s : String) : List Nat := s.data.map Char.toNat

/-- Embedding of `memchr::memchr`: index of the first occurrence of byte `b`. -/
def memchr (b : Nat) : List Nat → Option Nat
  | [] => none
  | h :: t => if h = b then some 0 else (memchr b t).map (· + 1)

/-- `startsWith hs nd` holds when `nd` is an initial segment of `hs`. -/
def startsWith : List Nat → List Nat → Bool
  | _, [] => true
  | [], _ :: _ => false
  | h :: t, h' :: t' => h = h' && startsWith t t'

/-- Embedding of `memmem::find(haystack, needle)`: index of the first
occurrence of `needle` as a contiguous subsequence of the haystack. -/
def memmem (needle : List Nat) : List Nat → Option Nat
  | [] => if startsWith [] needle then some 0 else none
  | h :: t => if startsWith (h :: t) needle then some 0 else (memmem needle t).map (· + 1)

/-- Rust's inclusive slice `&v[a..=b]`: defined (as `v[a..b+1]`) exactly when
`a ≤ b + 1` and `b < v.length`; `none` models the slice-index panic. -/
def sliceIncl (l : List Nat) (a b : Nat) : Option (List Nat) :=
  if a ≤ b + 1 ∧ b < l.length then some ((l.drop a).take (b + 1 - a)) else none

/-- Modelled from the spec: the pending-I/O descriptor / bridge-result value
exchanged between the coroutine and the runtime bridge (`io_stream::Io`,
external to this repository). A suspended read emits `readWanted` and is
answered with `readDone bytes`; a suspended write emits `writeWanted payload`
and is answered with `writeDone`. -/
inductive Io where
  | readWanted : Io
  | readDone (bytes : List Nat) : Io
  | writeWanted (bytes : List Nat) : Io
  | writeDone : Io
  deriving DecidableEq

/-- Modelled from the spec: the resumable read coroutine
(`io_stream::coroutines::Read`, external to this repository). Its internal
buffer is allocation reuse only (`replace` hands it back), so the embedding
carries no state: resuming with a bridge result yields the produced bytes,
resuming with anything else suspends with a read request. -/
structure Read where
  deriving DecidableEq

/-- Modelled from the spec: default read coroutine (`Read::default()`). -/
def Read.default : Read := ⟨⟩

/-- Modelled from the spec: driving the read coroutine. -/
def Read.resume (_ : Read) (io : Option Io) : Except Io (List Nat) :=
  match io with
  | some (Io.readDone bs) => Except.ok bs
  | _ => Except.error Io.readWanted

/-- Modelled from the spec: the resumable write coroutine
(`io_stream::coroutines::Write`, external to this repository); it holds the
exact payload to send. -/
structure Write where
  bytes : List Nat
  deriving DecidableEq

/-- Modelled from the spec: `Write::new(bytes)`. -/
def Write.new (bs : List Nat) : Write := ⟨bs⟩

/-- Modelled from the spec: `Write::default()` (empty payload). -/
def Write.default : Write := ⟨[]⟩

/-- Modelled from the spec: driving the write coroutine; it completes only
once the bridge confirms the whole payload was written, and otherwise
suspends with a write request carrying the payload. -/
def Write.resume (w : Write) (io : Option Io) : Except Io Unit :=
  match io with
  | some Io.writeDone => Except.ok ()
  | _ => Except.error (Io.writeWanted w.bytes)

/-- Internal state of the `UpgradeTls` flow (`enum State` in `src/imap.rs`). -/
inductive State where
  | DiscardGreeting (read : Read)
  | WriteStartTlsCommand (write : Write)
  | DiscardResponse (read : Read)
  deriving DecidableEq

/-- The STARTTLS coroutine (`struct UpgradeTls` in `src/imap.rs`). -/
structure UpgradeTls where
  state : State
  bytes : List Nat
  deriving DecidableEq

/-- `UpgradeTls::COMMAND`, the STARTTLS IMAP command. -/
def COMMAND : List Nat := strBytes "NGC6543 STARTTLS\r\n"

/-- The tag bytes searched for in the response (`b"NGC6543 "` at line 99). -/
def TAG : List Nat := strBytes "NGC6543 "

/-- `UpgradeTls::new` (lines 37–41 of `src/imap.rs`). -/
def UpgradeTls.new : UpgradeTls :=
  ⟨State.WriteStartTlsCommand Write.default, []⟩

/-- `UpgradeTls::discard_greeting` (lines 52–58). -/
def UpgradeTls.set_discard_greeting (m : UpgradeTls) (discard : Bool) : UpgradeTls :=
  { m with
    state :=
      if discard then State.DiscardGreeting Read.default
      else State.WriteStartTlsCommand Write.default }

/-- `UpgradeTls::with_discard_greeting` (lines 61–64). -/
def UpgradeTls.with_discard_greeting (m : UpgradeTls) (discard : Bool) : UpgradeTls :=
  m.set_discard_greeting discard

/-- Outcome of one iteration of the `loop` in `UpgradeTls::resume`. -/
inductive StepResult where
  | done (m : UpgradeTls)
  | suspend (io : Io) (m : UpgradeTls)
  | panicked : StepResult
  | next (m : UpgradeTls)
  deriving DecidableEq

/-- One iteration of the `loop` body of `UpgradeTls::resume` (lines 68–117):
`done` is `break Ok(())`, `suspend` is the `?`-propagated pending I/O,
`next` is `continue` (or falling through to the next loop iteration), and
`panicked` is the slice-index panic in the logging code. -/
def step (m : UpgradeTls) (io : Option Io) : StepResult :=
  match m.state with
  | State.DiscardGreeting read =>
    match Read.resume read io with
    | Except.error e => StepResult.suspend e m
    | Except.ok out =>
      match memchr lf (m.bytes ++ out) with
      | some n =>
        match sliceIncl (m.bytes ++ out) 0 n with
        | some _ =>
          StepResult.next ⟨State.WriteStartTlsCommand (Write.new COMMAND), m.bytes ++ out⟩
        | none => StepResult.panicked
      | none => StepResult.next ⟨State.DiscardGreeting read, m.bytes ++ out⟩
  | State.WriteStartTlsCommand write =>
    match Write.resume write io with
    | Except.error e => StepResult.suspend e m
    | Except.ok _ => StepResult.next ⟨State.DiscardResponse Read.default, []⟩
  | State.DiscardResponse read =>
    match Read.resume read io with
    | Except.error e => StepResult.suspend e m
    | Except.ok out =>
      match memmem TAG (m.bytes ++ out) with
      | none => StepResult.next ⟨State.DiscardResponse read, m.bytes ++ out⟩
      | some n =>
        match memchr lf ((m.bytes ++ out).drop n) with
        | some mm =>
          match sliceIncl (m.bytes ++ out) n mm with
          | some _ => StepResult.done ⟨State.DiscardResponse read, m.bytes ++ out⟩
          | none => StepResult.panicked
        | none => StepResult.next ⟨State.DiscardResponse read, m.bytes ++ out⟩

/-- Result of one call to `UpgradeTls::resume`: `ok` is `Ok(())` together with
the mutated machine, `pending` is `Err(io)` together with the mutated machine,
and `panicked` models the Rust panic (no machine survives unwinding). -/
inductive ResumeResult where
  | ok (m : UpgradeTls)
  | pending (io : Io) (m : UpgradeTls)
  | panicked : ResumeResult
  deriving DecidableEq

/-- Fuelled iteration of the loop body. Every iteration after the first runs
with the input already taken (`io.take()`), and `step _ none` always suspends,
so the loop performs at most two iterations; fuel `3` is therefore slack
(`step_none` below), and the fuel-exhaustion value is unreachable. -/
def resumeFuel : Nat → UpgradeTls → Option Io → ResumeResult
  | 0, _, _ => ResumeResult.panicked
  | k + 1, m, io =>
    match step m io with
    | StepResult.done m' => ResumeResult.ok m'
    | StepResult.suspend e m' => ResumeResult.pending e m'
    | StepResult.panicked => ResumeResult.panicked
    | StepResult.next m' => resumeFuel k m' none

/-- `UpgradeTls::resume` (lines 67–118). -/
def UpgradeTls.resume (m : UpgradeTls) (io : Option Io) : ResumeResult :=
  resumeFuel 3 m io

/-- The single I/O request a suspended machine is waiting for. -/
def pendingIo (m : UpgradeTls) : Io :=
  match m.state with
  | State.DiscardGreeting _ => Io.readWanted
  | State.WriteStartTlsCommand w => Io.writeWanted w.bytes
  | State.DiscardResponse _ => Io.readWanted

/-- The driver loop of the examples, restricted to read results: feed the
chunks one by one, answering each `readWanted` suspension with the next
chunk, and stop at the first outcome that is not a read suspension (or when
the chunks run out, returning the still-suspended machine). -/
def driveReads : UpgradeTls → List (List Nat) → ResumeResult
  | m, [] => ResumeResult.pending Io.readWanted m
  | m, c :: cs =>
    match UpgradeTls.resume m (some (Io.readDone c)) with
    | ResumeResult.pending Io.readWanted m' => driveReads m' cs
    | r => r

/-! ### Scan lemmas -/

theorem memchr_lt {b : Nat} : ∀ {l : List Nat} {i : Nat}, memchr b l = some i → i < l.length := by
  intro l
  induction l with
  | nil => intro i h; simp [memchr] at h
  | cons hd tl ih =>
    intro i h
    simp only [memchr] at h
    by_cases hb : hd = b
    · rw [if_pos hb] at h
      cases h
      simp
    · rw [if_neg hb] at h
      cases hmc : memchr b tl with
      | none => rw [hmc] at h; simp at h
      | some j =>
        rw [hmc] at h
        simp only [Option.map_some'] at h
        cases h
        have := ih hmc
        simp only [List.length_cons]
        omega

theorem memchr_append_some {b : Nat} :
    ∀ {p : List Nat} {i : Nat}, memchr b p = some i → ∀ t, memchr b (p ++ t) = some i := by
  intro p
  induction p with
  | nil => intro i h; simp [memchr] at h
  | cons hd tl ih =>
    intro i h t
    rw [List.cons_append]
    simp only [memchr] at h ⊢
    by_cases hb : hd = b
    · rw [if_pos hb] at h ⊢; exact h
    · rw [if_neg hb] at h ⊢
      cases hmc : memchr b tl with
      | none => rw [hmc] at h; simp at h
      | some j =>
        rw [hmc] at h
        rw [ih hmc t]
        exact h

theorem memchr_exists_of_mem {b : Nat} :
    ∀ {l : List Nat}, b ∈ l → ∃ i, memchr b l = some i := by
  intro l
  induction l with
  | nil => intro h; simp at h
  | cons hd tl ih =>
    intro h
    simp only [memchr]
    by_cases hb : hd = b
    · exact ⟨0, by rw [if_pos hb]⟩
    · have hmem : b ∈ tl := by
        cases List.mem_cons.mp h with
        | inl he => exact absurd he.symm hb
        | inr hm => exact hm
      obtain ⟨j, hj⟩ := ih hmem
      exact ⟨j + 1, by rw [if_neg hb, hj]; rfl⟩

theorem startsWith_iff :
    ∀ {hs nd : List Nat}, startsWith hs nd = true ↔ ∃ t, hs = nd ++ t := by
  intro hs
  induction hs with
  | nil =>
    intro nd
    cases nd with
    | nil => simp [startsWith]
    | cons h t => simp [startsWith]
  | cons h t ih =>
    intro nd
    cases nd with
    | nil => simp [startsWith]
    | cons h' t' =>
      simp only [startsWith, Bool.and_eq_true, decide_eq_true_eq, List.cons_append,
        List.cons.injEq]
      constructor
      · rintro ⟨rfl, hsw⟩
        obtain ⟨u, hu⟩ := (@ih t').mp hsw
        exact ⟨u, rfl, hu⟩
      · rintro ⟨u, rfl, hu⟩
        exact ⟨rfl, (@ih t').mpr ⟨u, hu⟩⟩

theorem startsWith_length {hs nd : List Nat} (h : startsWith hs nd = true) :
    nd.length ≤ hs.length := by
  obtain ⟨t, rfl⟩ := startsWith_iff.mp h
  simp

theorem startsWith_append {x nd : List Nat} (h : startsWith x nd = true) (t : List Nat) :
    startsWith (x ++ t) nd = true := by
  obtain ⟨u, rfl⟩ := startsWith_iff.mp h
  exact startsWith_iff.mpr ⟨u ++ t, by simp⟩

theorem startsWith_of_append_le {x t nd : List Nat} (hle : nd.length ≤ x.length)
    (h : startsWith (x ++ t) nd = true) : startsWith x nd = true := by
  obtain ⟨u, hu⟩ := startsWith_iff.mp h
  refine startsWith_iff.mpr ⟨x.drop nd.length, ?_⟩
  have hx : x.take nd.length = nd := by
    have h1 : (x ++ t).take nd.length = x.take nd.length :=
      List.take_append_of_le_length hle
    rw [hu] at h1
    rw [List.take_append_of_le_length (Nat.le_refl _)] at h1
    rw [List.take_length] at h1
    exact h1.symm
  calc x = x.take nd.length ++ x.drop nd.length := (List.take_append_drop _ _).symm
    _ = nd ++ x.drop nd.length := by rw [hx]

theorem memmem_spec {nd : List Nat} :
    ∀ {hs : List Nat} {n : Nat}, memmem nd hs = some n →
      startsWith (hs.drop n) nd = true ∧ ∀ j, j < n → startsWith (hs.drop j) nd = false := by
  intro hs
  induction hs with
  | nil =>
    intro n h
    simp only [memmem] at h
    by_cases hsw : startsWith [] nd = true
    · rw [if_pos hsw] at h
      cases h
      exact ⟨hsw, fun j hj => absurd hj (Nat.not_lt_zero j)⟩
    · rw [if_neg hsw] at h
      simp at h
  | cons hd tl ih =>
    intro n h
    simp only [memmem] at h
    by_cases hsw : startsWith (hd :: tl) nd = true
    · rw [if_pos hsw] at h
      cases h
      exact ⟨hsw, fun j hj => absurd hj (Nat.not_lt_zero j)⟩
    · rw [if_neg hsw] at h
      cases hmc : memmem nd tl with
      | none => rw [hmc] at h; simp at h
      | some j =>
        rw [hmc] at h
        simp only [Option.map_some'] at h
        cases h
        obtain ⟨hpos, hmin⟩ := ih hmc
        constructor
        · simpa using hpos
        · intro k hk
          cases k with
          | zero => simpa using Bool.eq_false_iff.mpr hsw
          | succ k' =>
            simp only [List.drop_succ_cons]
            exact hmin k' (by omega)

theorem memmem_intro {nd : List Nat} :
    ∀ {hs : List Nat} {n : Nat}, startsWith (hs.drop n) nd = true →
      (∀ j, j < n → startsWith (hs.drop j) nd = false) → memmem nd hs = some n := by
  intro hs
  induction hs with
  | nil =>
    intro n hpos hmin
    simp only [List.drop_nil] at hpos
    cases n with
    | zero => simp [memmem, hpos]
    | succ n' =>
      have := hmin 0 (Nat.succ_pos n')
      simp only [List.drop_nil] at this
      rw [hpos] at this
      cases this
  | cons hd tl ih =>
    intro n hpos hmin
    cases n with
    | zero =>
      simp only [List.drop_zero] at hpos
      simp [memmem, hpos]
    | succ n' =>
      have h0 := hmin 0 (Nat.succ_pos n')
      simp only [List.drop_zero] at h0
      simp only [memmem, h0]
      rw [if_neg (by simp [h0])]
      have hrec : memmem nd tl = some n' := by
        apply ih
        · simpa using hpos
        · intro j hj
          have := hmin (j + 1) (by omega)
          simpa using this
      rw [hrec]
      rfl

theorem memmem_le {nd : List Nat} :
    ∀ {hs : List Nat} {n : Nat}, memmem nd hs = some n → n ≤ hs.length := by
  intro hs
  induction hs with
  | nil =>
    intro n h
    simp only [memmem] at h
    by_cases hsw : startsWith [] nd = true
    · rw [if_pos hsw] at h; cases h; simp
    · rw [if_neg hsw] at h; simp at h
  | cons hd tl ih =>
    intro n h
    simp only [memmem] at h
    by_cases hsw : startsWith (hd :: tl) nd = true
    · rw [if_pos hsw] at h; cases h; simp
    · rw [if_neg hsw] at h
      cases hmc : memmem nd tl with
      | none => rw [hmc] at h; simp at h
      | some j =>
        rw [hmc] at h
        simp only [Option.map_some'] at h
        cases h
        have := ih hmc
        simp only [List.length_cons]
        omega

theorem memmem_le_length {nd : List Nat} {hs : List Nat} {n : Nat}
    (h : memmem nd hs = some n) : n + nd.length ≤ hs.length := by
  obtain ⟨hpos, _⟩ := memmem_spec h
  have h1 := startsWith_length hpos
  have h2 := memmem_le h
  have hlen : (hs.drop n).length = hs.length - n := List.length_drop n hs
  omega

theorem memmem_append_some {nd : List Nat} {p : List Nat} {n : Nat}
    (h : memmem nd p = some n) (t : List Nat) : memmem nd (p ++ t) = some n := by
  obtain ⟨hpos, hmin⟩ := memmem_spec h
  have hnle : n + nd.length ≤ p.length := memmem_le_length h
  apply memmem_intro
  · rw [List.drop_append_of_le_length (by omega)]
    exact startsWith_append hpos t
  · intro j hj
    rw [List.drop_append_of_le_length (by omega)]
    by_contra hcon
    have hsw : startsWith (p.drop j ++ t) nd = true := by
      cases hb : startsWith (p.drop j ++ t) nd with
      | false => exact absurd hb hcon
      | true => rfl
    have hdlen : nd.length ≤ (p.drop j).length := by
      have : (p.drop j).length = p.length - j := List.length_drop j p
      omega
    have := startsWith_of_append_le hdlen hsw
    rw [hmin j hj] at this
    cases this

/-! ### Unfolding lemmas for `resume` -/

theorem step_none (m : UpgradeTls) : step m none = StepResult.suspend (pendingIo m) m := by
  cases m with
  | mk st bs => cases st <;> rfl

theorem resumeFuel_succ (k : Nat) (m : UpgradeTls) (io : Option Io) :
    resumeFuel (k + 1) m io =
      match step m io with
      | StepResult.done m' => ResumeResult.ok m'
      | StepResult.suspend e m' => ResumeResult.pending e m'
      | StepResult.panicked => ResumeResult.panicked
      | StepResult.next m' => resumeFuel k m' none := rfl

theorem resume_none_eq (m : UpgradeTls) :
    UpgradeTls.resume m none = ResumeResult.pending (pendingIo m) m := by
  show resumeFuel (2 + 1) m none = _
  rw [resumeFuel_succ, step_none]

theorem resume_greeting_more (r : Read) (bs c : List Nat)
    (h : memchr lf (bs ++ c) = none) :
    UpgradeTls.resume ⟨State.DiscardGreeting r, bs⟩ (some (Io.readDone c)) =
      ResumeResult.pending Io.readWanted ⟨State.DiscardGreeting r, bs ++ c⟩ := by
  have hstep : step ⟨State.DiscardGreeting r, bs⟩ (some (Io.readDone c)) =
      StepResult.next ⟨State.DiscardGreeting r, bs ++ c⟩ := by
    simp [step, Read.resume, h]
  show resumeFuel (2 + 1) _ _ = _
  rw [resumeFuel_succ, hstep]
  show resumeFuel (1 + 1) _ none = _
  rw [resumeFuel_succ, step_none]
  rfl

theorem resume_greeting_line (r : Read) (bs c : List Nat) (n : Nat)
    (h : memchr lf (bs ++ c) = some n) :
    UpgradeTls.resume ⟨State.DiscardGreeting r, bs⟩ (some (Io.readDone c)) =
      ResumeResult.pending (Io.writeWanted COMMAND)
        ⟨State.WriteStartTlsCommand (Write.new COMMAND), bs ++ c⟩ := by
  have hn : n < bs.length + c.length := by
    have := memchr_lt h
    simpa using this
  have hstep : step ⟨State.DiscardGreeting r, bs⟩ (some (Io.readDone c)) =
      StepResult.next ⟨State.WriteStartTlsCommand (Write.new COMMAND), bs ++ c⟩ := by
    simp [step, Read.resume, h, sliceIncl, hn]
  show resumeFuel (2 + 1) _ _ = _
  rw [resumeFuel_succ, hstep]
  show resumeFuel (1 + 1) _ none = _
  rw [resumeFuel_succ, step_none]
  rfl

theorem resume_write_step (w : Write) (bs : List Nat) :
    UpgradeTls.resume ⟨State.WriteStartTlsCommand w, bs⟩ (some Io.writeDone) =
      ResumeResult.pending Io.readWanted ⟨State.DiscardResponse Read.default, []⟩ := by
  rfl

theorem resume_response_no_tag (r : Read) (bs c : List Nat)
    (h : memmem TAG (bs ++ c) = none) :
    UpgradeTls.resume ⟨State.DiscardResponse r, bs⟩ (some (Io.readDone c)) =
      ResumeResult.pending Io.readWanted ⟨State.DiscardResponse r, bs ++ c⟩ := by
  have hstep : step ⟨State.DiscardResponse r, bs⟩ (some (Io.readDone c)) =
      StepResult.next ⟨State.DiscardResponse r, bs ++ c⟩ := by
    simp [step, Read.resume, h]
  show resumeFuel (2 + 1) _ _ = _
  rw [resumeFuel_succ, hstep]
  show resumeFuel (1 + 1) _ none = _
  rw [resumeFuel_succ, step_none]
  rfl

theorem resume_response_no_eol (r : Read) (bs c : List Nat) (n : Nat)
    (h1 : memmem TAG (bs ++ c) = some n)
    (h2 : memchr lf ((bs ++ c).drop n) = none) :
    UpgradeTls.resume ⟨State.DiscardResponse r, bs⟩ (some (Io.readDone c)) =
      ResumeResult.pending Io.readWanted ⟨State.DiscardResponse r, bs ++ c⟩ := by
  have hstep : step ⟨State.DiscardResponse r, bs⟩ (some (Io.readDone c)) =
      StepResult.next ⟨State.DiscardResponse r, bs ++ c⟩ := by
    simp [step, Read.resume, h1, h2]
  show resumeFuel (2 + 1) _ _ = _
  rw [resumeFuel_succ, hstep]
  show resumeFuel (1 + 1) _ none = _
  rw [resumeFuel_succ, step_none]
  rfl

theorem resume_response_ok (r : Read) (bs c : List Nat) (n mm : Nat)
    (h1 : memmem TAG (bs ++ c) = some n)
    (h2 : memchr lf ((bs ++ c).drop n) = some mm)
    (h3 : n ≤ mm + 1) :
    UpgradeTls.resume ⟨State.DiscardResponse r, bs⟩ (some (Io.readDone c)) =
      ResumeResult.ok ⟨State.DiscardResponse r, bs ++ c⟩ := by
  have hmm : mm < bs.length + c.length := by
    have := memchr_lt h2
    have hlen : ((bs ++ c).drop n).length = (bs ++ c).length - n := List.length_drop _ _
    simp only [List.length_append] at hlen this
    omega
  have hstep : step ⟨State.DiscardResponse r, bs⟩ (some (Io.readDone c)) =
      StepResult.done ⟨State.DiscardResponse r, bs ++ c⟩ := by
    simp [step, Read.resume, h1, h2, sliceIncl, h3, hmm]
  show resumeFuel (2 + 1) _ _ = _
  rw [resumeFuel_succ, hstep]

theorem resume_response_panic (r : Read) (bs c : List Nat) (n mm : Nat)
    (h1 : memmem TAG (bs ++ c) = some n)
    (h2 : memchr lf ((bs ++ c).drop n) = some mm)
    (h3 : mm + 1 < n) :
    UpgradeTls.resume ⟨State.DiscardResponse r, bs⟩ (some (Io.readDone c)) =
      ResumeResult.panicked := by
  have hslice : sliceIncl (bs ++ c) n mm = none := by
    simp only [sliceIncl]
    rw [if_neg]
    intro hcon
    omega
  have hstep : step ⟨State.DiscardResponse r, bs⟩ (some (Io.readDone c)) =
      StepResult.panicked := by
    simp [step, Read.resume, h1, h2, hslice]
  show resumeFuel (2 + 1) _ _ = _
  rw [resumeFuel_succ, hstep]

/-! ### Driving the machine over a sequence of read chunks -/

theorem driveReads_nil (m : UpgradeTls) :
    driveReads m [] = ResumeResult.pending Io.readWanted m := rfl

theorem driveReads_cons (m : UpgradeTls) (c : List Nat) (cs : List (List Nat)) :
    driveReads m (c :: cs) =
      match UpgradeTls.resume m (some (Io.readDone c)) with
      | ResumeResult.pending Io.readWanted m' => driveReads m' cs
      | r => r := rfl

theorem driveReads_greeting_aux (g : List Nat) (i : Nat)
    (h1 : memchr lf g = some i) (h2 : i + 1 = g.length) :
    ∀ cs acc, acc ++ cs.flatten = g → memchr lf acc = none →
      driveReads ⟨State.DiscardGreeting Read.default, acc⟩ cs =
        ResumeResult.pending (Io.writeWanted COMMAND)
          ⟨State.WriteStartTlsCommand (Write.new COMMAND), g⟩ := by
  intro cs
  induction cs with
  | nil =>
    intro acc hacc hnone
    simp only [List.flatten_nil, List.append_nil] at hacc
    subst hacc
    rw [h1] at hnone
    cases hnone
  | cons c cs ih =>
    intro acc hacc hnone
    rw [driveReads_cons]
    have hpre : (acc ++ c) ++ cs.flatten = g := by
      rw [← hacc]; simp
    cases hm : memchr lf (acc ++ c) with
    | none =>
      rw [resume_greeting_more Read.default acc c hm]
      exact ih (acc ++ c) hpre hm
    | some j =>
      have hj : memchr lf g = some j := by
        rw [← hpre]; exact memchr_append_some hm _
      have hij : i = j := by
        rw [h1] at hj; injection hj
      have hlen : j < (acc ++ c).length := memchr_lt hm
      have hlenapp : (acc ++ c).length + cs.flatten.length = g.length := by
        rw [← hpre]; simp; omega
      have hflat : cs.flatten = [] := List.length_eq_zero.mp (by omega)
      have hg : acc ++ c = g := by
        rw [← hpre, hflat, List.append_nil]
      rw [resume_greeting_line Read.default acc c j hm, hg]

theorem driveReads_greeting (cs : List (List Nat)) (i : Nat)
    (h1 : memchr lf cs.flatten = some i) (h2 : i + 1 = cs.flatten.length) :
    driveReads ⟨State.DiscardGreeting Read.default, []⟩ cs =
      ResumeResult.pending (Io.writeWanted COMMAND)
        ⟨State.WriteStartTlsCommand (Write.new COMMAND), cs.flatten⟩ :=
  driveReads_greeting_aux cs.flatten i h1 h2 cs [] (by simp) rfl

theorem driveReads_response_aux (rr : List Nat) (n mm : Nat)
    (h1 : memmem TAG rr = some n) (h2 : memchr lf (rr.drop n) = some mm)
    (h3 : n ≤ mm + 1) (h4 : rr.length = n + mm + 1) :
    ∀ ds acc, acc ++ ds.flatten = rr → acc.length < rr.length →
      driveReads ⟨State.DiscardResponse Read.default, acc⟩ ds =
        ResumeResult.ok ⟨State.DiscardResponse Read.default, rr⟩ := by
  intro ds
  induction ds with
  | nil =>
    intro acc hacc hlt
    simp only [List.flatten_nil, List.append_nil] at hacc
    subst hacc
    exact absurd hlt (lt_irrefl _)
  | cons c ds ih =>
    intro acc hacc hlt
    rw [driveReads_cons]
    have hpre : (acc ++ c) ++ ds.flatten = rr := by
      rw [← hacc]; simp
    by_cases hfull : rr.length ≤ (acc ++ c).length
    · have hlenapp : (acc ++ c).length + ds.flatten.length = rr.length := by
        rw [← hpre]; simp; omega
      have hflat : ds.flatten = [] := List.length_eq_zero.mp (by omega)
      have hg : acc ++ c = rr := by
        rw [← hpre, hflat, List.append_nil]
      have hok := resume_response_ok Read.default acc c n mm
        (by rw [hg]; exact h1) (by rw [hg]; exact h2) h3
      rw [hok, hg]
    · push_neg at hfull
      cases hmem : memmem TAG (acc ++ c) with
      | none =>
        rw [resume_response_no_tag Read.default acc c hmem]
        exact ih (acc ++ c) hpre hfull
      | some n' =>
        have hmem' : memmem TAG rr = some n' := by
          rw [← hpre]; exact memmem_append_some hmem _
        have hnn : n = n' := by
          rw [h1] at hmem'; injection hmem'
        subst hnn
        have hnle : n + TAG.length ≤ (acc ++ c).length := memmem_le_length hmem
        cases heol : memchr lf ((acc ++ c).drop n) with
        | none =>
          rw [resume_response_no_eol Read.default acc c n hmem heol]
          exact ih (acc ++ c) hpre hfull
        | some j =>
          exfalso
          have hj : memchr lf (rr.drop n) = some j := by
            rw [← hpre, List.drop_append_of_le_length (by omega)]
            exact memchr_append_some heol _
          have hjm : mm = j := by
            rw [h2] at hj; injection hj
          have hjlt := memchr_lt heol
          have hdlen : ((acc ++ c).drop n).length = (acc ++ c).length - n :=
            List.length_drop _ _
          omega

theorem driveReads_response (ds : List (List Nat)) (n mm : Nat)
    (h1 : memmem TAG ds.flatten = some n) (h2 : memchr lf (ds.flatten.drop n) = some mm)
    (h3 : n ≤ mm + 1) (h4 : ds.flatten.length = n + mm + 1) :
    driveReads ⟨State.DiscardResponse Read.default, []⟩ ds =
      ResumeResult.ok ⟨State.DiscardResponse Read.default, ds.flatten⟩ :=
  driveReads_response_aux ds.flatten n mm h1 h2 h3 h4 ds [] (by simp)
    (by simp only [List.length_nil]; omega)

/-! ### Claims -/

/-- Claim C1: the spec states that `UpgradeTls::new` produces an instance whose
initial state is `DiscardGreeting` (greeting read and discarded before the
command is sent). The code instead starts in
`WriteStartTlsCommand(Write::default())`: the initial state is the write state
with an empty default payload, and the very first suspension of a freshly
constructed machine is a write request for no bytes, not a read of the
greeting. -/
theorem new_initial_state_is_write_command :
    UpgradeTls.new.state = State.WriteStartTlsCommand Write.default ∧
    UpgradeTls.resume UpgradeTls.new none
      = ResumeResult.pending (Io.writeWanted []) UpgradeTls.new :=
  ⟨rfl, rfl⟩

/-- Claim C2: the spec states that with greeting discard turned off, the first
suspension is a write request whose payload is the STARTTLS command. The code
installs `Write::default()` (empty payload) instead of seeding the command, so
the first suspension is a write request for zero bytes and the command is
never enqueued on this path. -/
theorem skip_greeting_first_write_has_empty_payload :
    UpgradeTls.resume (UpgradeTls.with_discard_greeting UpgradeTls.new false) none
      = ResumeResult.pending (Io.writeWanted [])
          ⟨State.WriteStartTlsCommand Write.default, []⟩ ∧
    ([] : List Nat) ≠ COMMAND :=
  ⟨rfl, by decide⟩

/-- Claim C3: in `DiscardGreeting`, once the accumulated bytes contain a line
feed, the machine constructs the command bytes and transitions to the write
state wrapping a fresh write operation seeded with exactly
`"NGC6543 STARTTLS\r\n"`, whose tag is the very prefix later searched for in
the response. -/
theorem greeting_line_enqueues_command (bs c : List Nat) (h : lf ∈ bs ++ c) :
    UpgradeTls.resume ⟨State.DiscardGreeting Read.default, bs⟩
        (some (Io.readDone c))
      = ResumeResult.pending (Io.writeWanted COMMAND)
          ⟨State.WriteStartTlsCommand (Write.new COMMAND), bs ++ c⟩ ∧
    COMMAND = TAG ++ strBytes "STARTTLS\r\n" := by
  obtain ⟨n, hn⟩ := memchr_exists_of_mem h
  exact ⟨resume_greeting_line Read.default bs c n hn, by decide⟩

/-- Witness for C3 at a concrete greeting. -/
theorem greeting_line_enqueues_command_witness :
    lf ∈ ([] : List Nat) ++ strBytes "* OK IMAP server ready\r\n" ∧
    (UpgradeTls.resume ⟨State.DiscardGreeting Read.default, []⟩
        (some (Io.readDone (strBytes "* OK IMAP server ready\r\n")))
      = ResumeResult.pending (Io.writeWanted COMMAND)
          ⟨State.WriteStartTlsCommand (Write.new COMMAND),
            [] ++ strBytes "* OK IMAP server ready\r\n"⟩ ∧
    COMMAND = TAG ++ strBytes "STARTTLS\r\n") :=
  ⟨by decide, greeting_line_enqueues_command [] _ (by decide)⟩

/-- Claim C4: the claim states that in `DiscardResponse` the machine succeeds
exactly when the buffer holds the tag with a line feed at or after it.
Evaluating the code at `"0123456789NGC6543 \n"` refutes this: the tag occurs
at index 10 and the terminator at relative offset 8, so a tagged terminated
line is present, yet `resume` panics on the logging slice `bytes[10..=8]`
(the offset is used as an absolute index) instead of returning success. -/
theorem tagged_line_present_but_resume_panics :
    memmem TAG (strBytes "0123456789NGC6543 \n") = some 10 ∧
    memchr lf ((strBytes "0123456789NGC6543 \n").drop 10) = some 8 ∧
    UpgradeTls.resume ⟨State.DiscardResponse Read.default, []⟩
        (some (Io.readDone (strBytes "0123456789NGC6543 \n")))
      = ResumeResult.panicked :=
  ⟨by decide, by decide, by decide⟩

/-- Claim C5: the claim states that `resume` is total and never panics for any
input bytes. Evaluating the code refutes this: delivering
`"unrelated noise NGC6543 \n"` in `DiscardResponse` panics, because the
logging slice confuses the relative offset of the line feed with an absolute
index. -/
theorem resume_panics_on_long_noise_input :
    UpgradeTls.resume ⟨State.DiscardResponse Read.default, []⟩
        (some (Io.readDone (strBytes "unrelated noise NGC6543 \n")))
      = ResumeResult.panicked := by decide

/-- Claim C6: the claim states that any amount of pre-tag noise is tolerated
and the machine completes exactly when the tagged terminated line is found.
Short noise is indeed retained and completion succeeds, but as soon as the
noise before the tag is longer than the tagged line itself the code panics
instead of completing. -/
theorem pre_tag_noise_panics_when_long :
    UpgradeTls.resume ⟨State.DiscardResponse Read.default, []⟩
        (some (Io.readDone (strBytes "noise\r\nNGC6543 OK\r\n")))
      = ResumeResult.ok
          ⟨State.DiscardResponse Read.default, strBytes "noise\r\nNGC6543 OK\r\n"⟩ ∧
    UpgradeTls.resume ⟨State.DiscardResponse Read.default, []⟩
        (some (Io.readDone (strBytes "* some untagged info line\r\nNGC6543 OK\r\n")))
      = ResumeResult.panicked :=
  ⟨by decide, by decide⟩

/-- Counterexample for C7 as stated: a response that does contain the full
tagged acknowledgement line (tag at 22, terminator at relative offset 11) for
which delivery never yields completion at all — the machine panics — so
"completion exactly once the full line is available" fails. -/
theorem full_tagged_line_without_completion :
    memmem TAG (strBytes "* OK waiting for TLS\r\nNGC6543 OK\r\n") = some 22 ∧
    memchr lf ((strBytes "* OK waiting for TLS\r\nNGC6543 OK\r\n").drop 22) = some 11 ∧
    driveReads ⟨State.DiscardResponse Read.default, []⟩
        [strBytes "* OK waiting for TLS\r\nNGC6543 OK\r\n"]
      = ResumeResult.panicked :=
  ⟨by decide, by decide, by decide⟩

/-- Claim C7 (amended): chunking invariance holds on the panic-free domain.
For a greeting whose first line feed is its last byte, any chunking of the
delivery yields the same transition to the write state seeded with the
command and the same accumulator; for a response ending at the terminator of
the tagged acknowledgement line whose logging slice is valid (tag position at
most one past the terminator offset), any chunking yields the same successful
completion with the same final machine. Both outcomes depend only on the
concatenation of the chunks, so one-chunk and many-chunk deliveries agree. -/
theorem chunking_invariance (cs ds : List (List Nat)) (i n mm : Nat)
    (h1 : memchr lf cs.flatten = some i) (h2 : i + 1 = cs.flatten.length)
    (h3 : memmem TAG ds.flatten = some n)
    (h4 : memchr lf (ds.flatten.drop n) = some mm)
    (h5 : n ≤ mm + 1) (h6 : ds.flatten.length = n + mm + 1) :
    driveReads ⟨State.DiscardGreeting Read.default, []⟩ cs
      = ResumeResult.pending (Io.writeWanted COMMAND)
          ⟨State.WriteStartTlsCommand (Write.new COMMAND), cs.flatten⟩ ∧
    driveReads ⟨State.DiscardResponse Read.default, []⟩ ds
      = ResumeResult.ok ⟨State.DiscardResponse Read.default, ds.flatten⟩ :=
  ⟨driveReads_greeting cs i h1 h2, driveReads_response ds n mm h3 h4 h5 h6⟩

/-- Witness for C7 at concrete chunkings: the greeting split in two, and the
response split inside the tag and before the trailing line feed. -/
theorem chunking_invariance_witness :
    memchr lf [strBytes "* OK", strBytes " ready\r\n"].flatten = some 11 ∧
    11 + 1 = [strBytes "* OK", strBytes " ready\r\n"].flatten.length ∧
    memmem TAG [strBytes "noise\r\nNGC", strBytes "6543 OK", strBytes "\r\n"].flatten
      = some 7 ∧
    memchr lf
        ([strBytes "noise\r\nNGC", strBytes "6543 OK", strBytes "\r\n"].flatten.drop 7)
      = some 11 ∧
    7 ≤ 11 + 1 ∧
    [strBytes "noise\r\nNGC", strBytes "6543 OK", strBytes "\r\n"].flatten.length
      = 7 + 11 + 1 ∧
    (driveReads ⟨State.DiscardGreeting Read.default, []⟩
        [strBytes "* OK", strBytes " ready\r\n"]
      = ResumeResult.pending (Io.writeWanted COMMAND)
          ⟨State.WriteStartTlsCommand (Write.new COMMAND),
            [strBytes "* OK", strBytes " ready\r\n"].flatten⟩ ∧
    driveReads ⟨State.DiscardResponse Read.default, []⟩
        [strBytes "noise\r\nNGC", strBytes "6543 OK", strBytes "\r\n"]
      = ResumeResult.ok
          ⟨State.DiscardResponse Read.default,
            [strBytes "noise\r\nNGC", strBytes "6543 OK", strBytes "\r\n"].flatten⟩) :=
  ⟨by decide, by decide, by decide, by decide, by decide, by decide,
    chunking_invariance _ _ 11 7 11 (by decide) (by decide) (by decide) (by decide)
      (by decide) (by decide)⟩

/-- Counterexample for C8 as stated: after the transition out of
`DiscardGreeting` the accumulator is not empty — it still holds the whole
greeting line — so the accumulator is not reset on every state transition. -/
theorem greeting_transition_keeps_accumulator :
    UpgradeTls.resume ⟨State.DiscardGreeting Read.default, []⟩
        (some (Io.readDone (strBytes "* OK\r\n")))
      = ResumeResult.pending (Io.writeWanted COMMAND)
          ⟨State.WriteStartTlsCommand (Write.new COMMAND), strBytes "* OK\r\n"⟩ ∧
    strBytes "* OK\r\n" ≠ ([] : List Nat) :=
  ⟨by decide, by decide⟩

/-- Claim C8 (amended): the accumulator only ever grows by appending the newly
read bytes while the machine stays in a reading state, it is cleared exactly
on the transition out of the write state (so `DiscardResponse` starts with an
empty accumulator), and on the transition out of `DiscardGreeting` it keeps
the greeting bytes (harmless: they are unused in the write state and cleared
before the response is scanned). -/
theorem accumulator_discipline (r : Read) (w : Write) (bs c : List Nat) :
    (memchr lf (bs ++ c) = none →
      UpgradeTls.resume ⟨State.DiscardGreeting r, bs⟩ (some (Io.readDone c))
        = ResumeResult.pending Io.readWanted ⟨State.DiscardGreeting r, bs ++ c⟩) ∧
    (memmem TAG (bs ++ c) = none →
      UpgradeTls.resume ⟨State.DiscardResponse r, bs⟩ (some (Io.readDone c))
        = ResumeResult.pending Io.readWanted ⟨State.DiscardResponse r, bs ++ c⟩) ∧
    UpgradeTls.resume ⟨State.WriteStartTlsCommand w, bs⟩ (some Io.writeDone)
      = ResumeResult.pending Io.readWanted ⟨State.DiscardResponse Read.default, []⟩ ∧
    (∀ n, memchr lf (bs ++ c) = some n →
      UpgradeTls.resume ⟨State.DiscardGreeting r, bs⟩ (some (Io.readDone c))
        = ResumeResult.pending (Io.writeWanted COMMAND)
            ⟨State.WriteStartTlsCommand (Write.new COMMAND), bs ++ c⟩) :=
  ⟨fun h => resume_greeting_more r bs c h,
   fun h => resume_response_no_tag r bs c h,
   resume_write_step w bs,
   fun n hn => resume_greeting_line r bs c n hn⟩

/-- Witness for C8 at concrete inputs: a partial line grows the accumulator in
both reading states, completing the write clears it, and finishing the
greeting keeps it. -/
theorem accumulator_discipline_witness :
    UpgradeTls.resume ⟨State.DiscardGreeting Read.default, strBytes "* pa"⟩
        (some (Io.readDone (strBytes "rtial")))
      = ResumeResult.pending Io.readWanted
          ⟨State.DiscardGreeting Read.default, strBytes "* pa" ++ strBytes "rtial"⟩ ∧
    UpgradeTls.resume ⟨State.DiscardResponse Read.default, strBytes "* pa"⟩
        (some (Io.readDone (strBytes "rtial")))
      = ResumeResult.pending Io.readWanted
          ⟨State.DiscardResponse Read.default, strBytes "* pa" ++ strBytes "rtial"⟩ ∧
    UpgradeTls.resume ⟨State.WriteStartTlsCommand Write.default, strBytes "* pa"⟩
        (some Io.writeDone)
      = ResumeResult.pending Io.readWanted
          ⟨State.DiscardResponse Read.default, []⟩ ∧
    UpgradeTls.resume ⟨State.DiscardGreeting Read.default, strBytes "* pa"⟩
        (some (Io.readDone (strBytes "rtial\n")))
      = ResumeResult.pending (Io.writeWanted COMMAND)
          ⟨State.WriteStartTlsCommand (Write.new COMMAND),
            strBytes "* pa" ++ strBytes "rtial\n"⟩ :=
  ⟨(accumulator_discipline Read.default Write.default (strBytes "* pa")
      (strBytes "rtial")).1 (by decide),
   (accumulator_discipline Read.default Write.default (strBytes "* pa")
      (strBytes "rtial")).2.1 (by decide),
   (accumulator_discipline Read.default Write.default (strBytes "* pa")
      (strBytes "rtial")).2.2.1,
   (accumulator_discipline Read.default Write.default (strBytes "* pa")
      (strBytes "rtial\n")).2.2.2 9 (by decide)⟩

/-- Claim C9: resuming with `None` always suspends with the machine unchanged
and exactly one outstanding I/O request, so repeated `None` calls while no
operation can progress lose no buffered bytes and duplicate no I/O; and any
machine returned suspended by a call behaves the same way. -/
theorem resume_none_idempotent (m : UpgradeTls) :
    UpgradeTls.resume m none = ResumeResult.pending (pendingIo m) m ∧
    (∀ io e m', UpgradeTls.resume m io = ResumeResult.pending e m' →
      UpgradeTls.resume m' none = ResumeResult.pending (pendingIo m') m') :=
  ⟨resume_none_eq m, fun _ _ m' _ => resume_none_eq m'⟩

/-- Witness for C9 at the freshly constructed machine. -/
theorem resume_none_idempotent_witness :
    UpgradeTls.resume UpgradeTls.new none
      = ResumeResult.pending (pendingIo UpgradeTls.new) UpgradeTls.new :=
  (resume_none_idempotent UpgradeTls.new).2 none (Io.writeWanted []) UpgradeTls.new
    (by decide)

/-- Claim C10: on success the call returns a bare `ok` carrying no bytes, and
the machine keeps its entire accumulated buffer — including any over-read
bytes beyond the acknowledgement line terminator — in its private
accumulator; nothing is cleared or truncated on completion. -/
theorem completion_keeps_private_buffer (bs c : List Nat) (n mm : Nat)
    (h1 : memmem TAG (bs ++ c) = some n)
    (h2 : memchr lf ((bs ++ c).drop n) = some mm)
    (h3 : n ≤ mm + 1) :
    UpgradeTls.resume ⟨State.DiscardResponse Read.default, bs⟩
        (some (Io.readDone c))
      = ResumeResult.ok ⟨State.DiscardResponse Read.default, bs ++ c⟩ :=
  resume_response_ok Read.default bs c n mm h1 h2 h3

/-- Witness for C10: a response chunk carrying bytes past the terminator;
the final machine retains them all. -/
theorem completion_keeps_private_buffer_witness :
    memmem TAG ([] ++ strBytes "NGC6543 OK\r\nleftover") = some 0 ∧
    memchr lf (([] ++ strBytes "NGC6543 OK\r\nleftover").drop 0) = some 11 ∧
    0 ≤ 11 + 1 ∧
    UpgradeTls.resume ⟨State.DiscardResponse Read.default, []⟩
        (some (Io.readDone (strBytes "NGC6543 OK\r\nleftover")))
      = ResumeResult.ok
          ⟨State.DiscardResponse Read.default, [] ++ strBytes "NGC6543 OK\r\nleftover"⟩ :=
  ⟨by decide, by decide, by decide,
    completion_keeps_private_buffer [] _ 0 11 (by decide) (by decide) (by decide)⟩

end IoStarttls
